import Mathlib

set_option maxRecDepth 1000000

/-
Verification of the ontology core in
src/fashion_ontology/src/ontology/base_ontology.py.

Modelling conventions (shallow embedding):
- Python dicts (insertion-ordered) are association lists `List (String × α)`
  with dict semantics: lookup finds the first entry, insertion with an
  existing key replaces the value in place, insertion with a fresh key
  appends at the end.
- Python sets of strings (a concept's `children`, the manager's
  `pending_concepts`) are duplicate-free lists with append-if-absent
  insertion; claims use only membership, never iteration order of a set.
- `datetime.now()` is an explicit logical clock threaded through the
  store state: each call reads the clock and advances it, so timestamps
  taken by distinct calls are distinct.
- Attribute dictionaries are `List (String × String)`: insertion-ordered
  string-keyed maps whose values survive JSON serialization exactly.
- `networkx.DiGraph` is a pair of insertion-ordered duplicate-free lists
  (nodes, directed edges); `add_edge` registers both endpoints as nodes.
  The node-attribute payloads passed to `add_node` are write-only in the
  source (never read back) and are omitted.
- `nx.shortest_path_length` on the directed graph is breadth-first
  search; fuel `nodes.length` suffices because every round of the search
  discovers at least one previously unvisited node.
- Python truthiness of the `parent` argument: `if parent:` is false for
  both `None` and the empty string; both cases are modelled.
- `json.dumps` of a proposal record is modelled by the record itself:
  on the modelled value domain (ordered string maps) serialization is
  injective, so set membership of serialized proposals is structural
  equality of `Proposal` values.
-/

/-! ## Python dict / set primitives -/

def dictGet {α : Type} : List (String × α) → String → Option α
  | [], _ => none
  | e :: rest, k => if e.1 = k then some e.2 else dictGet rest k

def dictInsert {α : Type} (k : String) (v : α) : List (String × α) → List (String × α)
  | [] => [(k, v)]
  | e :: rest => if e.1 = k then (k, v) :: rest else e :: dictInsert k v rest

def dictModify {α : Type} (k : String) (f : α → α) : List (String × α) → List (String × α)
  | [] => []
  | e :: rest => if e.1 = k then (e.1, f e.2) :: rest else e :: dictModify k f rest

def containsKey {α : Type} (l : List (String × α)) (k : String) : Bool :=
  (dictGet l k).isSome

def keysOf {α : Type} (l : List (String × α)) : List String :=
  l.map Prod.fst

/-- Python `set.add`: append if absent (membership-based set semantics). -/
def setAdd {α : Type} [DecidableEq α] (x : α) (l : List α) : List α :=
  if x ∈ l then l else l ++ [x]

/-! ## Data model -/

abbrev AttrMap := List (String × String)

/-- `FashionConcept` (base_ontology.py): `created_at`/`modified_at` are the
two `datetime.now()` readings taken by the constructor. -/
structure FashionConcept where
  name : String
  category : String
  attributes : AttrMap
  parent : Option String
  children : List String
  created_at : Nat
  modified_at : Nat
deriving DecidableEq

/-- The graph component of `networkx.DiGraph` that the source reads back:
node list and directed edge list, both insertion-ordered and duplicate-free. -/
structure DiGraph where
  nodes : List String
  edges : List (String × String)
deriving DecidableEq

def DiGraph.addNode (g : DiGraph) (n : String) : DiGraph :=
  if n ∈ g.nodes then g else { g with nodes := g.nodes ++ [n] }

def DiGraph.addEdge (g : DiGraph) (u v : String) : DiGraph :=
  let g1 := (g.addNode u).addNode v
  if (u, v) ∈ g1.edges then g1 else { g1 with edges := g1.edges ++ [(u, v)] }

/-- `FashionOntology` state: the `concepts` dict, the traversal graph, and
the logical clock standing for wall-clock time. -/
structure FashionOntology where
  concepts : List (String × FashionConcept)
  graph : DiGraph
  clock : Nat
deriving DecidableEq

/-- The `FashionConcept.__init__` body: `attributes or {}` maps both `None`
and `{}` to `{}`; children start empty; two clock readings are taken. -/
def newConcept (s : FashionOntology) (name category : String)
    (attributes : Option AttrMap) (parent : Option String) : FashionConcept :=
  { name := name, category := category, attributes := attributes.getD [],
    parent := parent, children := [],
    created_at := s.clock, modified_at := s.clock + 1 }

/-- `FashionOntology.add_concept`.  The concept is registered in the dict
first; then, for a truthy `parent`, the edge `parent → name` is added to the
graph and -- only when `parent` is a key of the (already updated) dict --
`name` is inserted into the parent's children set.  The Python constructor
cannot fail on the modelled inputs, so the operation is total. -/
def add_concept (s : FashionOntology) (name category : String)
    (attributes : Option AttrMap) (parent : Option String) : FashionOntology :=
  let concept := newConcept s name category attributes parent
  let concepts1 := dictInsert name concept s.concepts
  let graph1 := s.graph.addNode name
  match parent with
  | none => { concepts := concepts1, graph := graph1, clock := s.clock + 2 }
  | some p =>
    if p = "" then { concepts := concepts1, graph := graph1, clock := s.clock + 2 }
    else
      let graph2 := graph1.addEdge p name
      let concepts2 :=
        if containsKey concepts1 p then
          dictModify p (fun c => { c with children := setAdd name c.children }) concepts1
        else concepts1
      { concepts := concepts2, graph := graph2, clock := s.clock + 2 }

/-- `FashionOntology.get_children`: the children set, or empty for an
unknown name. -/
def get_children (s : FashionOntology) (concept_name : String) : List String :=
  match dictGet s.concepts concept_name with
  | some c => c.children
  | none => []

/-- The `while current in self.concepts and self.concepts[current].parent`
walk of `get_ancestry`.  `none` models non-termination of the Python loop;
a terminating run never revisits a node (the walk is deterministic), so
`s.concepts.length + 1` units of fuel cover every terminating run. -/
def ancestryWalk (s : FashionOntology) : Nat → String → List String → Option (List String)
  | 0, _, _ => none
  | fuel + 1, current, path =>
    match dictGet s.concepts current with
    | none => some path
    | some c =>
      match c.parent with
      | none => some path
      | some p =>
        if p = "" then some path
        else ancestryWalk s fuel p (path ++ [current])

/-- `FashionOntology.get_ancestry`: walk up, append the fixed root label
`"Fashion"`, reverse. -/
def get_ancestry (s : FashionOntology) (concept_name : String) : Option (List String) :=
  (ancestryWalk s (s.concepts.length + 1) concept_name []).map
    (fun path => (path ++ ["Fashion"]).reverse)

/-! ## Directed shortest paths (nx.shortest_path_length) via BFS -/

def nbrs (g : DiGraph) (u : String) : List String :=
  g.edges.filterMap (fun e => if e.1 = u then some e.2 else none)

def frontierNext (g : DiGraph) (dists : List (String × Nat)) (frontier : List String) : List String :=
  (frontier.foldl (fun acc u => acc ++ nbrs g u) []).foldl
    (fun acc v => if containsKey dists v || acc.contains v then acc else acc ++ [v]) []

def bfsAux (g : DiGraph) : Nat → List (String × Nat) → List String → Nat → List (String × Nat)
  | 0, dists, _, _ => dists
  | fuel + 1, dists, frontier, d =>
    match frontierNext g dists frontier with
    | [] => dists
    | v :: vs =>
      bfsAux g fuel (dists ++ ((v :: vs).map (fun w => (w, d + 1)))) (v :: vs) (d + 1)

/-- Distance map of directed shortest-path lengths from `src`; a name absent
from the map is unreachable (`nx.NetworkXNoPath`). -/
def bfsDists (g : DiGraph) (src : String) : List (String × Nat) :=
  bfsAux g g.nodes.length [(src, 0)] [src] 0

/-- Stable insertion keeping ascending distance order (`sorted` with
`key=lambda x: x[1]` is a stable ascending sort). -/
def insertByDist (x : String × Nat) : List (String × Nat) → List (String × Nat)
  | [] => [x]
  | y :: ys => if y.2 ≤ x.2 then y :: insertByDist x ys else x :: y :: ys

def sortByDist (l : List (String × Nat)) : List (String × Nat) :=
  l.foldl (fun acc x => insertByDist x acc) []

/-- `FashionOntology.find_related_concepts`: every other graph node whose
directed shortest-path distance from `concept_name` is defined and at most
`max_distance`, ordered by ascending distance. -/
def find_related_concepts (s : FashionOntology) (concept_name : String)
    (max_distance : Nat) : List String :=
  if concept_name ∈ s.graph.nodes then
    let dists := bfsDists s.graph concept_name
    let related := s.graph.nodes.filterMap (fun node =>
      if node = concept_name then none
      else
        match dictGet dists node with
        | some d => if d ≤ max_distance then some (node, d) else none
        | none => none)
    (sortByDist related).map Prod.fst
  else []

/-! ## Export / import -/

/-- One concept snapshot in the exported document
(`FashionConcept.to_dict`); the ISO-8601 timestamp strings round-trip
exactly, so they are kept as the clock values. -/
structure ConceptDoc where
  name : String
  category : String
  attributes : AttrMap
  parent : Option String
  children : List String
  created_at : Nat
  modified_at : Nat
deriving DecidableEq

def to_dict (c : FashionConcept) : ConceptDoc :=
  { name := c.name, category := c.category, attributes := c.attributes,
    parent := c.parent, children := c.children,
    created_at := c.created_at, modified_at := c.modified_at }

/-- The exported JSON document. -/
structure OntDoc where
  concepts : List (String × ConceptDoc)
  relationships : List (String × String)
deriving DecidableEq

/-- `FashionOntology.export_to_json`. -/
def exportToJson (s : FashionOntology) : OntDoc :=
  { concepts := s.concepts.map (fun e => (e.1, to_dict e.2)),
    relationships := s.graph.edges }

/-- The replay loop of `import_from_json`: `add_concept` per document entry,
in document order, using only name/category/attributes/parent. -/
def replayDocs (st : FashionOntology) (docs : List (String × ConceptDoc)) : FashionOntology :=
  docs.foldl (fun s e => add_concept s e.1 e.2.category (some e.2.attributes) e.2.parent) st

/-- `FashionOntology.import_from_json`: clear concepts and graph (the clock
keeps running), then replay.  `relationships` and the `children` lists of
the document are never read. -/
def importFromJson (s : FashionOntology) (doc : OntDoc) : FashionOntology :=
  replayDocs { concepts := [], graph := { nodes := [], edges := [] }, clock := s.clock } doc.concepts

/-! ## Seeded constructor -/

def main_categories : List String := ["Apparel", "Footwear", "Accessories", "Beauty"]

def apparel_categories : List String :=
  ["Dresses", "Tops", "Bottoms", "Outerwear", "Suits",
   "Activewear", "Intimates", "Swimwear"]

def attribute_categories : List (String × List String) :=
  [("Material", ["Cotton", "Silk", "Wool", "Polyester", "Leather", "Denim"]),
   ("Pattern", ["Solid", "Striped", "Floral", "Checked", "Geometric"]),
   ("Style", ["Casual", "Formal", "Athletic", "Bohemian", "Classic"]),
   ("Fit", ["Regular", "Slim", "Loose", "Tailored", "Oversized"]),
   ("Length", ["Mini", "Midi", "Maxi", "Cropped", "Full-length"]),
   ("Occasion", ["Casual", "Formal", "Party", "Workwear", "Sports"]),
   ("Feature", ["Pockets", "Buttons", "Zippers", "Collar", "Hood"]),
   ("Construction", ["Woven", "Knitted", "Quilted", "Seamless"])]

/-- `_add_attribute_categories`. -/
def add_attribute_categories (s : FashionOntology) : FashionOntology :=
  attribute_categories.foldl
    (fun st e =>
      e.2.foldl (fun st2 attr => add_concept st2 attr "attribute" none (some e.1))
        (add_concept st e.1 "attribute_category" none (some "Fashion")))
    s

def emptyOntology : FashionOntology :=
  { concepts := [], graph := { nodes := [], edges := [] }, clock := 0 }

/-- `FashionOntology.__init__` + `_initialize_base_structure`: the seeded
store (clock starts at 0). -/
def FashionOntology.new : FashionOntology :=
  add_attribute_categories
    (apparel_categories.foldl (fun st c => add_concept st c "sub_category" none (some "Apparel"))
      (main_categories.foldl (fun st c => add_concept st c "main_category" none (some "Fashion"))
        (add_concept emptyOntology "Fashion" "root" none none)))

/-! ## OntologyManager -/

/-- A pending proposal: the four fields `suggest_new_concept` serializes.
`attributes` is stored exactly as passed (`None` stays `null`). -/
structure Proposal where
  name : String
  category : String
  attributes : Option AttrMap
  parent : Option String
deriving DecidableEq

structure OntologyManager where
  ontology : FashionOntology
  pending_concepts : List Proposal
deriving DecidableEq

def OntologyManager.new : OntologyManager :=
  { ontology := FashionOntology.new, pending_concepts := [] }

/-- `OntologyManager.suggest_new_concept`. -/
def suggest_new_concept (m : OntologyManager) (name category : String)
    (attributes : Option AttrMap) (parent : Option String) : Bool × OntologyManager :=
  if containsKey m.ontology.concepts name then (false, m)
  else
    (true,
      { m with
        pending_concepts := setAdd (Proposal.mk name category attributes parent) m.pending_concepts })

/-- `OntologyManager.approve_concept`: first pending proposal (in the
modelled iteration order) whose name matches is committed via
`add_concept` and removed; otherwise `false` with no state change. -/
def approve_concept (m : OntologyManager) (name : String) : Bool × OntologyManager :=
  match m.pending_concepts.find? (fun p => p.name == name) with
  | none => (false, m)
  | some p =>
    (true, { ontology := add_concept m.ontology p.name p.category p.attributes p.parent,
             pending_concepts := m.pending_concepts.erase p })

/-! ## Derived notions used by the claims -/

/-- The category/attributes/parent content of a concept (the fields the
round-trip claims compare; children and timestamps excluded). -/
def coreOf (c : FashionConcept) : String × AttrMap × Option String :=
  (c.category, c.attributes, c.parent)

def coreEntries (l : List (String × FashionConcept)) :
    List (String × (String × AttrMap × Option String)) :=
  l.map (fun e => (e.1, coreOf e.2))

def docCore (cd : ConceptDoc) : String × AttrMap × Option String :=
  (cd.category, cd.attributes, cd.parent)

/-- The edge set derived from the `parent` fields: one edge `(P, C)` per
concept `C` whose parent field is `P`. -/
def parentEdges (s : FashionOntology) : List (String × String) :=
  s.concepts.filterMap (fun e =>
    match e.2.parent with
    | some p => some (p, e.1)
    | none => none)

def coreParentEdges (ces : List (String × (String × AttrMap × Option String))) :
    List (String × String) :=
  ces.filterMap (fun e =>
    match e.2.2.2 with
    | some p => some (p, e.1)
    | none => none)

/-- `created_at` of the concept stored under a name, if any. -/
def createdAtOf (s : FashionOntology) (n : String) : Option Nat :=
  (dictGet s.concepts n).map FashionConcept.created_at

/-- Decidable form of the back-reference invariant: every name in any
concept's children set is a key of the store. -/
def allChildrenExist (s : FashionOntology) : Bool :=
  s.concepts.all (fun e => e.2.children.all (fun c => containsKey s.concepts c))

/-- Propositional form of the back-reference invariant, stated for every
entry of the concepts dict. -/
def childrenClosed (s : FashionOntology) : Prop :=
  ∀ e ∈ s.concepts, ∀ c ∈ e.2.children, containsKey s.concepts c = true

/-- The §8 scenario store: root `"Fashion"`, then `"Apparel"` under it,
then `"Dresses"` under `"Apparel"`. -/
def scenarioStore : FashionOntology :=
  add_concept
    (add_concept
      (add_concept emptyOntology "Fashion" "root" none none)
      "Apparel" "main_category" none (some "Fashion"))
    "Dresses" "sub_category" none (some "Apparel")


/-- A manager state holding one pending proposal (used to instantiate the
approval claims at a concrete input). -/
def mgrPending : OntologyManager :=
  { ontology := scenarioStore,
    pending_concepts := [Proposal.mk "Hats" "main_category" none (some "Fashion")] }

/-- A manager state whose single pending proposal bears the name of an
already committed concept (the root), reachable by suggesting two
different proposals under a fresh name and approving one of them. -/
def mgrDup : OntologyManager :=
  { ontology := scenarioStore,
    pending_concepts := [Proposal.mk "Fashion" "hijacked" none none] }

/-! ## Association-list lemmas -/

theorem dictGet_dictInsert_self {α : Type} (l : List (String × α)) (k : String) (v : α) :
    dictGet (dictInsert k v l) k = some v := by
  induction l with
  | nil => simp [dictInsert, dictGet]
  | cons e rest ih =>
    by_cases h : e.1 = k
    · simp [dictInsert, dictGet, h]
    · simp [dictInsert, dictGet, h, ih]

theorem dictGet_dictInsert_ne {α : Type} (l : List (String × α)) (k k' : String) (v : α)
    (h : k' ≠ k) : dictGet (dictInsert k v l) k' = dictGet l k' := by
  have hk : ¬(k = k') := fun hh => h hh.symm
  induction l with
  | nil => simp [dictInsert, dictGet, hk]
  | cons e rest ih =>
    by_cases he : e.1 = k
    · simp [dictInsert, dictGet, he, hk]
    · by_cases he' : e.1 = k'
      · simp [dictInsert, dictGet, he, he', h]
      · simp [dictInsert, dictGet, he, he', ih]

theorem dictGet_dictModify_map {α : Type} {β : Type} (l : List (String × α)) (k : String)
    (f : α → α) (g : α → β) (hg : ∀ a, g (f a) = g a) (q : String) :
    (dictGet (dictModify k f l) q).map g = (dictGet l q).map g := by
  induction l with
  | nil => simp [dictModify]
  | cons e rest ih =>
    by_cases he : e.1 = k
    · by_cases hq : e.1 = q
      · have hkq : k = q := he.symm.trans hq
        simp [dictModify, dictGet, he, hq, hkq, hg]
      · have hkq : ¬(k = q) := fun hh => hq (he.trans hh)
        simp [dictModify, dictGet, he, hq, hkq]
    · by_cases hq : e.1 = q
      · have hqk : ¬(q = k) := fun hh => he (hq.trans hh)
        simp [dictModify, dictGet, he, hq, hqk]
      · simp [dictModify, dictGet, he, hq, ih]

theorem dictGet_dictModify_ne {α : Type} (l : List (String × α)) (k k' : String)
    (f : α → α) (h : k' ≠ k) : dictGet (dictModify k f l) k' = dictGet l k' := by
  have hk : ¬(k = k') := fun hh => h hh.symm
  induction l with
  | nil => simp [dictModify]
  | cons e rest ih =>
    by_cases he : e.1 = k
    · have he' : ¬(e.1 = k') := fun hh => h (hh.symm.trans he)
      simp [dictModify, dictGet, he, he', hk]
    · by_cases he' : e.1 = k'
      · simp [dictModify, dictGet, he, he', h]
      · simp [dictModify, dictGet, he, he', ih]

theorem dictInsert_of_fresh {α : Type} (l : List (String × α)) (k : String) (v : α)
    (h : dictGet l k = none) : dictInsert k v l = l ++ [(k, v)] := by
  induction l with
  | nil => simp [dictInsert]
  | cons e rest ih =>
    by_cases he : e.1 = k
    · simp [dictGet, he] at h
    · simp [dictGet, he] at h
      simp [dictInsert, he, ih h]

theorem containsKey_dictInsert {α : Type} (l : List (String × α)) (k k' : String) (v : α) :
    containsKey (dictInsert k v l) k' = true ↔ (k' = k ∨ containsKey l k' = true) := by
  by_cases h : k' = k
  · subst h
    simp [containsKey, dictGet_dictInsert_self]
  · simp [containsKey, dictGet_dictInsert_ne l k k' v h, h]

theorem isSome_dictGet_dictModify {α : Type} (l : List (String × α)) (k k' : String)
    (f : α → α) : (dictGet (dictModify k f l) k').isSome = (dictGet l k').isSome := by
  induction l with
  | nil => simp [dictModify]
  | cons e rest ih =>
    by_cases he : e.1 = k
    · by_cases he' : e.1 = k' <;> simp [dictModify, dictGet, he, he]
      · by_cases hkk : k = k' <;> simp [hkk]
      · by_cases hkk : k = k' <;> simp [hkk]
    · by_cases he' : e.1 = k'
      · have hk : ¬(k' = k) := fun hh => he (he'.trans hh)
        simp [dictModify, dictGet, he, he', hk]
      · simp [dictModify, dictGet, he, he', ih]

theorem containsKey_dictModify {α : Type} (l : List (String × α)) (k k' : String)
    (f : α → α) : containsKey (dictModify k f l) k' = containsKey l k' := by
  simp [containsKey, isSome_dictGet_dictModify]

theorem dictGet_eq_none_iff {α : Type} (l : List (String × α)) (k : String) :
    dictGet l k = none ↔ k ∉ keysOf l := by
  induction l with
  | nil => simp [dictGet, keysOf]
  | cons e rest ih =>
    by_cases he : e.1 = k
    · simp [dictGet, keysOf, he]
    · have h1 : dictGet (e :: rest) k = dictGet rest k := by simp [dictGet, he]
      have h2 : k ∈ keysOf (e :: rest) ↔ k = e.1 ∨ k ∈ keysOf rest := by
        simp [keysOf, eq_comm]
      rw [h1]
      constructor
      · intro h hk
        rcases h2.mp hk with hk' | hk'
        · exact he hk'.symm
        · exact (ih.mp h) hk'
      · intro h
        rw [ih]
        intro hk
        exact h (h2.mpr (Or.inr hk))

theorem containsKey_iff_mem_keysOf {α : Type} (l : List (String × α)) (k : String) :
    containsKey l k = true ↔ k ∈ keysOf l := by
  have hn := dictGet_eq_none_iff l k
  rw [containsKey, Option.isSome_iff_ne_none]
  constructor
  · intro h
    by_contra hk
    exact h (hn.mpr hk)
  · intro h hcontra
    exact (hn.mp hcontra) h

theorem dictGet_mem {α : Type} (l : List (String × α)) (k : String) (v : α)
    (h : dictGet l k = some v) : (k, v) ∈ l := by
  induction l with
  | nil => simp [dictGet] at h
  | cons e rest ih =>
    by_cases he : e.1 = k
    · simp [dictGet, he] at h
      have : e = (k, v) := by
        cases e
        simp_all
      rw [← this]
      exact List.mem_cons_self _ _
    · simp [dictGet, he] at h
      exact List.mem_cons_of_mem _ (ih h)

theorem mem_dictInsert {α : Type} (l : List (String × α)) (k : String) (v : α)
    (e : String × α) (h : e ∈ dictInsert k v l) : e = (k, v) ∨ e ∈ l := by
  induction l with
  | nil =>
    simp [dictInsert] at h
    exact Or.inl h
  | cons e' rest ih =>
    by_cases he : e'.1 = k
    · simp only [dictInsert, if_pos he, List.mem_cons] at h
      rcases h with h | h
      · exact Or.inl h
      · exact Or.inr (List.mem_cons_of_mem _ h)
    · simp only [dictInsert, if_neg he, List.mem_cons] at h
      rcases h with h | h
      · exact Or.inr (by simp [h])
      · rcases ih h with h' | h'
        · exact Or.inl h'
        · exact Or.inr (List.mem_cons_of_mem _ h')

theorem mem_dictModify {α : Type} (l : List (String × α)) (k : String) (f : α → α)
    (e : String × α) (h : e ∈ dictModify k f l) :
    e ∈ l ∨ ∃ a, (k, a) ∈ l ∧ e = (k, f a) := by
  induction l with
  | nil => simp [dictModify] at h
  | cons e' rest ih =>
    by_cases he : e'.1 = k
    · simp only [dictModify, if_pos he, List.mem_cons] at h
      rcases h with h | h
      · refine Or.inr ⟨e'.2, ?_, ?_⟩
        · have : e' = (k, e'.2) := by
            cases e'
            simp_all
          rw [← this]
          exact List.mem_cons_self _ _
        · rw [h, he]
      · exact Or.inl (List.mem_cons_of_mem _ h)
    · simp only [dictModify, if_neg he, List.mem_cons] at h
      rcases h with h | h
      · exact Or.inl (by simp [h])
      · rcases ih h with h' | ⟨a, ha, he'⟩
        · exact Or.inl (List.mem_cons_of_mem _ h')
        · exact Or.inr ⟨a, List.mem_cons_of_mem _ ha, he'⟩

theorem keysOf_append {α : Type} (l l' : List (String × α)) :
    keysOf (l ++ l') = keysOf l ++ keysOf l' := by
  simp [keysOf]

theorem keysOf_coreEntries (l : List (String × FashionConcept)) :
    keysOf (coreEntries l) = keysOf l := by
  simp [keysOf, coreEntries, List.map_map]

theorem coreEntries_dictModify (l : List (String × FashionConcept)) (k : String)
    (f : FashionConcept → FashionConcept) (hf : ∀ c, coreOf (f c) = coreOf c) :
    coreEntries (dictModify k f l) = coreEntries l := by
  induction l with
  | nil => simp [dictModify]
  | cons e rest ih =>
    by_cases he : e.1 = k
    · simp [dictModify, coreEntries, he, hf]
    · simp only [dictModify, if_neg he, coreEntries, List.map_cons]
      simp only [coreEntries] at ih
      simp [ih]

theorem mem_setAdd {α : Type} [DecidableEq α] (x y : α) (l : List α) :
    y ∈ setAdd x l ↔ y = x ∨ y ∈ l := by
  by_cases h : x ∈ l
  · simp only [setAdd, if_pos h]
    constructor
    · exact fun hy => Or.inr hy
    · intro hy
      rcases hy with hy | hy
      · exact hy ▸ h
      · exact hy
  · simp [setAdd, h, or_comm]

theorem self_mem_setAdd {α : Type} [DecidableEq α] (x : α) (l : List α) :
    x ∈ setAdd x l := (mem_setAdd x x l).mpr (Or.inl rfl)

theorem dictGet_dictModify_self {α : Type} (l : List (String × α)) (k : String)
    (f : α → α) : dictGet (dictModify k f l) k = (dictGet l k).map f := by
  induction l with
  | nil => simp [dictModify, dictGet]
  | cons e rest ih =>
    by_cases he : e.1 = k
    · simp [dictModify, dictGet, he]
    · simp [dictModify, dictGet, he, ih]

/-! ## Characterization of add_concept -/

theorem add_concept_concepts_none (s : FashionOntology) (n c : String) (a : Option AttrMap) :
    (add_concept s n c a none).concepts = dictInsert n (newConcept s n c a none) s.concepts := rfl

theorem add_concept_concepts_blank (s : FashionOntology) (n c : String) (a : Option AttrMap) :
    (add_concept s n c a (some "")).concepts
      = dictInsert n (newConcept s n c a (some "")) s.concepts := rfl

theorem add_concept_concepts_pos (s : FashionOntology) (n c : String) (a : Option AttrMap)
    (p : String) (hp : ¬(p = ""))
    (hc : containsKey (dictInsert n (newConcept s n c a (some p)) s.concepts) p = true) :
    (add_concept s n c a (some p)).concepts
      = dictModify p (fun cc => { cc with children := setAdd n cc.children })
          (dictInsert n (newConcept s n c a (some p)) s.concepts) := by
  simp [add_concept, hp, hc]

theorem add_concept_concepts_neg (s : FashionOntology) (n c : String) (a : Option AttrMap)
    (p : String) (hp : ¬(p = ""))
    (hc : containsKey (dictInsert n (newConcept s n c a (some p)) s.concepts) p = false) :
    (add_concept s n c a (some p)).concepts
      = dictInsert n (newConcept s n c a (some p)) s.concepts := by
  simp [add_concept, hp, hc]

theorem add_concept_concepts (s : FashionOntology) (n c : String) (a : Option AttrMap)
    (p : Option String) :
    (add_concept s n c a p).concepts = dictInsert n (newConcept s n c a p) s.concepts
    ∨ ∃ q, (add_concept s n c a p).concepts
        = dictModify q (fun cc => { cc with children := setAdd n cc.children })
            (dictInsert n (newConcept s n c a p) s.concepts) := by
  cases p with
  | none => exact Or.inl rfl
  | some pp =>
    by_cases hp : pp = ""
    · subst hp
      exact Or.inl (add_concept_concepts_blank s n c a)
    · by_cases hc : containsKey (dictInsert n (newConcept s n c a (some pp)) s.concepts) pp
      · exact Or.inr ⟨pp, add_concept_concepts_pos s n c a pp hp hc⟩
      · exact Or.inl (add_concept_concepts_neg s n c a pp hp (by simpa using hc))

theorem add_concept_clock (s : FashionOntology) (n c : String) (a : Option AttrMap)
    (p : Option String) : (add_concept s n c a p).clock = s.clock + 2 := by
  cases p with
  | none => rfl
  | some pp =>
    by_cases hp : pp = ""
    · simp [add_concept, hp]
    · by_cases hc : containsKey (dictInsert n (newConcept s n c a (some pp)) s.concepts) pp <;>
        simp [add_concept, hp, hc]

theorem add_concept_graph_some (s : FashionOntology) (n c : String) (a : Option AttrMap)
    (p : String) (hp : ¬(p = "")) :
    (add_concept s n c a (some p)).graph = (s.graph.addNode n).addEdge p n := by
  by_cases hc : containsKey (dictInsert n (newConcept s n c a (some p)) s.concepts) p <;>
    simp [add_concept, hp, hc]

theorem coreEntries_add_concept (s : FashionOntology) (n c : String) (a : Option AttrMap)
    (p : Option String) :
    coreEntries (add_concept s n c a p).concepts
      = coreEntries (dictInsert n (newConcept s n c a p) s.concepts) := by
  rcases add_concept_concepts s n c a p with h | ⟨q, h⟩
  · rw [h]
  · rw [h, coreEntries_dictModify]
    intro cc
    rfl

theorem keysOf_add_concept (s : FashionOntology) (n c : String) (a : Option AttrMap)
    (p : Option String) :
    keysOf (add_concept s n c a p).concepts
      = keysOf (dictInsert n (newConcept s n c a p) s.concepts) := by
  rw [← keysOf_coreEntries, coreEntries_add_concept, keysOf_coreEntries]

theorem keysOf_add_concept_fresh (s : FashionOntology) (n c : String) (a : Option AttrMap)
    (p : Option String) (h : dictGet s.concepts n = none) :
    keysOf (add_concept s n c a p).concepts = keysOf s.concepts ++ [n] := by
  rw [keysOf_add_concept, dictInsert_of_fresh _ _ _ h, keysOf_append]
  rfl

theorem containsKey_add_concept (s : FashionOntology) (n c : String) (a : Option AttrMap)
    (p : Option String) (x : String) :
    containsKey (add_concept s n c a p).concepts x = true
      ↔ (x = n ∨ containsKey s.concepts x = true) := by
  rw [containsKey_iff_mem_keysOf, keysOf_add_concept, ← containsKey_iff_mem_keysOf]
  exact containsKey_dictInsert s.concepts n x (newConcept s n c a p)

theorem createdAtOf_add_concept (s : FashionOntology) (n c : String) (a : Option AttrMap)
    (p : Option String) (q : String) :
    createdAtOf (add_concept s n c a p) q
      = if q = n then some s.clock else createdAtOf s q := by
  have base : (dictGet (dictInsert n (newConcept s n c a p) s.concepts) q).map FashionConcept.created_at
      = if q = n then some s.clock else (dictGet s.concepts q).map FashionConcept.created_at := by
    by_cases hq : q = n
    · subst hq
      simp [dictGet_dictInsert_self, newConcept]
    · simp [dictGet_dictInsert_ne _ _ _ _ hq, hq]
  rcases add_concept_concepts s n c a p with h | ⟨w, h⟩
  · simp only [createdAtOf, h]
    exact base
  · have hmap := dictGet_dictModify_map (dictInsert n (newConcept s n c a p) s.concepts) w
      (fun cc => { cc with children := setAdd n cc.children }) FashionConcept.created_at
      (fun cc => rfl) q
    simp only [createdAtOf, h]
    rw [hmap]
    exact base

theorem coreOf_add_concept_self (s : FashionOntology) (n c : String) (a : Option AttrMap)
    (p : Option String) :
    (dictGet (add_concept s n c a p).concepts n).map coreOf = some (c, a.getD [], p) := by
  rcases add_concept_concepts s n c a p with h | ⟨w, h⟩
  · rw [h, dictGet_dictInsert_self]
    rfl
  · have hmap := dictGet_dictModify_map (dictInsert n (newConcept s n c a p) s.concepts) w
      (fun cc => { cc with children := setAdd n cc.children }) coreOf
      (fun cc => rfl) n
    rw [h, hmap, dictGet_dictInsert_self]
    rfl

theorem mem_addEdge_self (g : DiGraph) (u v : String) : (u, v) ∈ (g.addEdge u v).edges := by
  by_cases h : (u, v) ∈ ((g.addNode u).addNode v).edges <;> simp [DiGraph.addEdge, h]

/-! ## Length lemmas for sorting and filtering -/

theorem length_filterMap_mono {α β : Type} (f g : α → Option β) (l : List α)
    (h : ∀ x, (f x).isSome = true → (g x).isSome = true) :
    (l.filterMap f).length ≤ (l.filterMap g).length := by
  induction l with
  | nil => simp
  | cons x xs ih =>
    cases hf : f x with
    | none =>
      cases hg : g x with
      | none => simpa [List.filterMap_cons, hf, hg] using ih
      | some b =>
        simp only [List.filterMap_cons, hf, hg, List.length_cons]
        omega
    | some b =>
      have hs := h x (by simp [hf])
      cases hg : g x with
      | none =>
        rw [hg] at hs
        simp at hs
      | some b' =>
        simp only [List.filterMap_cons, hf, hg, List.length_cons]
        omega

theorem insertByDist_length (x : String × Nat) (l : List (String × Nat)) :
    (insertByDist x l).length = l.length + 1 := by
  induction l with
  | nil => rfl
  | cons y ys ih =>
    by_cases h : y.2 ≤ x.2 <;> simp [insertByDist, h, ih]

theorem foldl_insertByDist_length (l : List (String × Nat)) :
    ∀ acc, (l.foldl (fun a x => insertByDist x a) acc).length = acc.length + l.length := by
  induction l with
  | nil =>
    intro acc
    simp
  | cons x xs ih =>
    intro acc
    simp only [List.foldl_cons, List.length_cons]
    rw [ih, insertByDist_length]
    omega

theorem sortByDist_length (l : List (String × Nat)) : (sortByDist l).length = l.length := by
  simp [sortByDist, foldl_insertByDist_length]

/-! ## Replay (import) lemmas -/

theorem replayDocs_cons (st : FashionOntology) (e : String × ConceptDoc)
    (rest : List (String × ConceptDoc)) :
    replayDocs st (e :: rest)
      = replayDocs (add_concept st e.1 e.2.category (some e.2.attributes) e.2.parent) rest := rfl

theorem replay_coreEntries (docs : List (String × ConceptDoc)) :
    ∀ st : FashionOntology,
      (∀ k ∈ keysOf docs, dictGet st.concepts k = none) →
      (keysOf docs).Nodup →
      coreEntries (replayDocs st docs).concepts
        = coreEntries st.concepts ++ docs.map (fun e => (e.1, docCore e.2)) := by
  induction docs with
  | nil =>
    intro st _ _
    simp [replayDocs]
  | cons e rest ih =>
    intro st hfresh hnodup
    have hkeys_cons : keysOf (e :: rest) = e.1 :: keysOf rest := rfl
    have hfe : dictGet st.concepts e.1 = none := by
      apply hfresh
      rw [hkeys_cons]
      exact List.mem_cons_self _ _
    have step : coreEntries (add_concept st e.1 e.2.category (some e.2.attributes) e.2.parent).concepts
        = coreEntries st.concepts ++ [(e.1, docCore e.2)] := by
      rw [coreEntries_add_concept, dictInsert_of_fresh _ _ _ hfe]
      simp [coreEntries, newConcept, docCore, coreOf]
    have hkeys : keysOf (add_concept st e.1 e.2.category (some e.2.attributes) e.2.parent).concepts
        = keysOf st.concepts ++ [e.1] :=
      keysOf_add_concept_fresh st e.1 e.2.category (some e.2.attributes) e.2.parent hfe
    have hnd := hnodup
    rw [hkeys_cons, List.nodup_cons] at hnd
    have hfresh' : ∀ k ∈ keysOf rest,
        dictGet (add_concept st e.1 e.2.category (some e.2.attributes) e.2.parent).concepts k = none := by
      intro k hk
      have hne : ¬(k = e.1) := by
        intro hkeq
        exact hnd.1 (hkeq ▸ hk)
      have hkf : dictGet st.concepts k = none := by
        apply hfresh
        rw [hkeys_cons]
        exact List.mem_cons_of_mem _ hk
      rw [dictGet_eq_none_iff, hkeys]
      rw [dictGet_eq_none_iff] at hkf
      simp [hkf, hne]
    rw [replayDocs_cons, ih _ hfresh' hnd.2, step]
    simp

theorem replay_createdAt (docs : List (String × ConceptDoc)) :
    ∀ (st : FashionOntology) (c0 : Nat), c0 ≤ st.clock →
      (∀ q d, createdAtOf st q = some d → c0 ≤ d) →
      (∀ q d, createdAtOf (replayDocs st docs) q = some d → c0 ≤ d) := by
  induction docs with
  | nil =>
    intro st c0 _ h
    exact h
  | cons e rest ih =>
    intro st c0 hclock h
    have hstep : ∀ q d,
        createdAtOf (add_concept st e.1 e.2.category (some e.2.attributes) e.2.parent) q = some d →
        c0 ≤ d := by
      intro q d hq
      rw [createdAtOf_add_concept] at hq
      by_cases hqe : q = e.1
      · rw [if_pos hqe] at hq
        injection hq with hq'
        omega
      · rw [if_neg hqe] at hq
        exact h q d hq
    have hclock' : c0 ≤ (add_concept st e.1 e.2.category (some e.2.attributes) e.2.parent).clock := by
      rw [add_concept_clock]
      omega
    rw [replayDocs_cons]
    exact ih _ c0 hclock' hstep

theorem parentEdges_eq_coreParentEdges (s : FashionOntology) :
    parentEdges s = coreParentEdges (coreEntries s.concepts) := by
  unfold parentEdges coreParentEdges coreEntries
  rw [List.filterMap_map]
  rfl

/-! ## The back-reference invariant -/

theorem childrenClosed_add_concept (s : FashionOntology) (n c : String) (a : Option AttrMap)
    (p : Option String) (h : childrenClosed s) : childrenClosed (add_concept s n c a p) := by
  intro e he ch hch
  rw [containsKey_add_concept]
  rcases add_concept_concepts s n c a p with hcs | ⟨w, hcs⟩
  · rw [hcs] at he
    rcases mem_dictInsert _ _ _ _ he with he' | he'
    · subst he'
      have hch' : ch ∈ ([] : List String) := hch
      simp at hch'
    · exact Or.inr (h e he' ch hch)
  · rw [hcs] at he
    rcases mem_dictModify _ _ _ _ he with he' | ⟨cc, hcc, he'⟩
    · rcases mem_dictInsert _ _ _ _ he' with he'' | he''
      · subst he''
        have hch' : ch ∈ ([] : List String) := hch
        simp at hch'
      · exact Or.inr (h e he'' ch hch)
    · subst he'
      have hch' : ch ∈ setAdd n cc.children := hch
      rw [mem_setAdd] at hch'
      rcases hch' with hch' | hch'
      · exact Or.inl hch'
      · rcases mem_dictInsert _ _ _ _ hcc with hcc' | hcc'
        · have hcceq : cc = newConcept s n c a p := congrArg Prod.snd hcc'
          rw [hcceq] at hch'
          have hch'' : ch ∈ ([] : List String) := hch'
          simp at hch''
        · exact Or.inr (h (w, cc) hcc' ch hch')

theorem childrenClosed_replay (docs : List (String × ConceptDoc)) :
    ∀ st : FashionOntology, childrenClosed st → childrenClosed (replayDocs st docs) := by
  induction docs with
  | nil =>
    intro st h
    exact h
  | cons e rest ih =>
    intro st h
    rw [replayDocs_cons]
    exact ih _ (childrenClosed_add_concept _ _ _ _ _ h)

theorem allChildrenExist_iff (s : FashionOntology) :
    allChildrenExist s = true ↔ childrenClosed s := by
  simp [allChildrenExist, childrenClosed, List.all_eq_true]

theorem get_children_eq (s : FashionOntology) (x : String) :
    get_children s x
      = match dictGet s.concepts x with
        | some c => c.children
        | none => [] := rfl

/-! ## Claims -/

/-- C1 counterexample: on the seeded ontology, `get_ancestry("Fashion")` is
not the two-element sequence `["Fashion", "Fashion"]` the claim asserts. -/
theorem C1_counterexample :
    get_ancestry FashionOntology.new "Fashion" ≠ some ["Fashion", "Fashion"] := by
  decide

/-- C1 (amended): `get_ancestry("Fashion")` on the seeded ontology returns
the one-element sequence `["Fashion"]`: the walk stops immediately at the
root (whose parent is `None`) without recording it, and the fixed root
label is then appended exactly once — the root label is never duplicated. -/
theorem C1_theorem :
    get_ancestry FashionOntology.new "Fashion" = some ["Fashion"] := by
  decide

/-- C2 counterexample: the claimed iff already fails on the freshly seeded
ontology: `"Casual"` is a member of `"Style"`'s children set, but the stored
concept `"Casual"` has parent `"Occasion"` (the Occasion seeding overwrote
it), not `"Style"` — so membership in a children set does not imply the
member's parent is that concept. -/
theorem C2_counterexample :
    "Casual" ∈ get_children FashionOntology.new "Style"
      ∧ (dictGet FashionOntology.new.concepts "Casual").map FashionConcept.parent
          = some (some "Occasion")
      ∧ ¬((dictGet FashionOntology.new.concepts "Casual").map FashionConcept.parent
          = some (some "Style")) := by
  decide

/-- C2 (amended): only the forward containment survives: every name in any
concept's children set names a concept that exists in the store.  This
holds of the freshly seeded ontology and is preserved by `add_concept` and
by `import_from_json`.  The claimed iff (C ∈ P.children ⟺ C exists with
parent P) fails: overwriting a concept leaves a stale back-reference in its
old parent's children set, as the seeded store itself shows at `"Casual"`. -/
theorem C2_theorem :
    allChildrenExist FashionOntology.new = true
      ∧ (∀ (s : FashionOntology) (n c : String) (a : Option AttrMap) (p : Option String),
          allChildrenExist s = true → allChildrenExist (add_concept s n c a p) = true)
      ∧ (∀ (s : FashionOntology) (doc : OntDoc),
          allChildrenExist (importFromJson s doc) = true) := by
  refine ⟨by decide, ?_, ?_⟩
  · intro s n c a p h
    rw [allChildrenExist_iff] at h ⊢
    exact childrenClosed_add_concept s n c a p h
  · intro s doc
    rw [allChildrenExist_iff]
    unfold importFromJson
    apply childrenClosed_replay
    intro e he
    simp at he

theorem C2_witness :
    allChildrenExist (add_concept scenarioStore "Skirts" "sub_category" none (some "Apparel")) = true :=
  C2_theorem.2.1 scenarioStore "Skirts" "sub_category" none (some "Apparel") (by decide)

/-- C3 counterexample: in the §8 scenario store, `find_related_concepts("Apparel", 1)`
does not contain `"Fashion"` and does not have two elements: the search is
directed, and the ancestor `"Fashion"` is unreachable from `"Apparel"`. -/
theorem C3_counterexample :
    "Fashion" ∉ find_related_concepts scenarioStore "Apparel" 1
      ∧ (find_related_concepts scenarioStore "Apparel" 1).length ≠ 2 := by
  decide

/-- C3 (amended): in the scenario store, `find_related_concepts("Apparel", 1)`
returns exactly `["Dresses"]`: only forward (parent→child) edges are
followed, so the child `"Dresses"` is at distance 1 while the parent
`"Fashion"` has no directed path from `"Apparel"` and is excluded. -/
theorem C3_theorem :
    find_related_concepts scenarioStore "Apparel" 1 = ["Dresses"] := by
  decide

/-- C4: export followed by import of the resulting document restores, for a
store with duplicate-free keys, exactly the same ordered concepts dict up
to category/attributes/parent content (hence the same name set and the same
category, attributes and parent for every name), and preserves the
parent-derived edge set exactly; the rebuild uses only the per-concept
`parent` fields, never the document's `children` lists or `relationships`. -/
theorem C4_theorem (s : FashionOntology) (h : (keysOf s.concepts).Nodup) :
    coreEntries (importFromJson s (exportToJson s)).concepts = coreEntries s.concepts
      ∧ parentEdges (importFromJson s (exportToJson s)) = parentEdges s := by
  have hkeys : keysOf (exportToJson s).concepts = keysOf s.concepts := by
    simp [exportToJson, keysOf, List.map_map]
  have hfresh : ∀ k ∈ keysOf (exportToJson s).concepts,
      dictGet (FashionOntology.mk [] (DiGraph.mk [] []) s.clock).concepts k = none := by
    intro k _
    rfl
  have hnodup : (keysOf (exportToJson s).concepts).Nodup := by
    rw [hkeys]
    exact h
  have hrep := replay_coreEntries (exportToJson s).concepts _ hfresh hnodup
  have hmain : coreEntries (importFromJson s (exportToJson s)).concepts
      = coreEntries s.concepts := by
    unfold importFromJson
    rw [hrep]
    simp only [coreEntries, List.map_nil, List.nil_append, exportToJson, List.map_map]
    rfl
  refine ⟨hmain, ?_⟩
  rw [parentEdges_eq_coreParentEdges, parentEdges_eq_coreParentEdges, hmain]

theorem C4_witness :
    (keysOf scenarioStore.concepts).Nodup
      ∧ (coreEntries (importFromJson scenarioStore (exportToJson scenarioStore)).concepts
            = coreEntries scenarioStore.concepts
        ∧ parentEdges (importFromJson scenarioStore (exportToJson scenarioStore))
            = parentEdges scenarioStore) :=
  ⟨by decide, C4_theorem scenarioStore (by decide)⟩

/-- C5 counterexample: timestamps are not preserved by the round trip: in
the scenario store, `"Fashion"` is exported with `created_at` 0 but comes
back with `created_at` 6 — the clock value at which the import replay
reconstructed it. -/
theorem C5_counterexample :
    createdAtOf scenarioStore "Fashion" = some 0
      ∧ createdAtOf (importFromJson scenarioStore (exportToJson scenarioStore)) "Fashion" = some 6
      ∧ createdAtOf (importFromJson scenarioStore (exportToJson scenarioStore)) "Fashion"
          ≠ createdAtOf scenarioStore "Fashion" := by
  decide

/-- C5 (amended): import regenerates timestamps rather than preserving
them: every concept present after `import_from_json` has a `created_at`
taken from a fresh clock reading at or after the import started; in the
scenario store every reimported concept's `created_at` differs from the
exported one. -/
theorem C5_theorem :
    (∀ (s : FashionOntology) (doc : OntDoc) (n : String) (d : Nat),
        createdAtOf (importFromJson s doc) n = some d → s.clock ≤ d)
      ∧ createdAtOf (importFromJson scenarioStore (exportToJson scenarioStore)) "Apparel"
          ≠ createdAtOf scenarioStore "Apparel"
      ∧ createdAtOf (importFromJson scenarioStore (exportToJson scenarioStore)) "Dresses"
          ≠ createdAtOf scenarioStore "Dresses" := by
  refine ⟨?_, by decide, by decide⟩
  intro s doc n d hd
  unfold importFromJson at hd
  refine replay_createdAt doc.concepts
    (FashionOntology.mk [] (DiGraph.mk [] []) s.clock) s.clock (le_refl _) ?_ n d hd
  intro q d' hq
  simp [createdAtOf, dictGet] at hq

theorem C5_witness :
    createdAtOf (importFromJson scenarioStore (exportToJson scenarioStore)) "Fashion" = some 6
      ∧ scenarioStore.clock ≤ 6 :=
  ⟨by decide, C5_theorem.1 scenarioStore (exportToJson scenarioStore) "Fashion" 6 (by decide)⟩

/-- C6 counterexample: the "iff parent was already known at call time" part
fails when a concept names itself as parent: `"Selfref"` is unknown in the
seeded store, yet after `add_concept("Selfref", parent="Selfref")` the name
is in its own children set, because the membership check runs after the new
concept is registered in the dict. -/
theorem C6_counterexample :
    containsKey FashionOntology.new.concepts "Selfref" = false
      ∧ "Selfref" ∈ get_children
          (add_concept FashionOntology.new "Selfref" "test" none (some "Selfref")) "Selfref" := by
  decide

/-- C6 (amended): for every call with a truthy (non-empty, non-None) parent
`p`: the directed edge `(p, name)` is always added to the graph; `name` is
inserted into `p`'s children set iff `p` was already a known concept at the
time of the call OR `p = name` (the check `parent in self.concepts` runs
after the new concept is registered); and when `p` is unknown and distinct
from `name`, the children set of every concept other than `name` itself is
left unchanged, with no error raised (the operation is total). -/
theorem C6_theorem (s : FashionOntology) (n c : String) (a : Option AttrMap) (p : String)
    (hp : ¬(p = "")) :
    (p, n) ∈ (add_concept s n c a (some p)).graph.edges
      ∧ (n ∈ get_children (add_concept s n c a (some p)) p
          ↔ (containsKey s.concepts p = true ∨ p = n))
      ∧ (containsKey s.concepts p = false → ¬(p = n) →
          ∀ q, ¬(q = n) → get_children (add_concept s n c a (some p)) q = get_children s q) := by
  have hedge : (p, n) ∈ (add_concept s n c a (some p)).graph.edges := by
    rw [add_concept_graph_some s n c a p hp]
    exact mem_addEdge_self _ p n
  have hck := containsKey_dictInsert s.concepts n p (newConcept s n c a (some p))
  refine ⟨hedge, ?_, ?_⟩
  · by_cases hc : containsKey (dictInsert n (newConcept s n c a (some p)) s.concepts) p = true
    · have hsome : ∃ cc, dictGet (dictInsert n (newConcept s n c a (some p)) s.concepts) p = some cc := by
        rw [containsKey] at hc
        exact Option.isSome_iff_exists.mp hc
      rcases hsome with ⟨cc, hcc⟩
      have hval : get_children (add_concept s n c a (some p)) p = setAdd n cc.children := by
        rw [get_children_eq, add_concept_concepts_pos s n c a p hp hc, dictGet_dictModify_self, hcc]
        rfl
      rw [hval]
      constructor
      · intro _
        rcases hck.mp hc with h1 | h1
        · exact Or.inr h1
        · exact Or.inl h1
      · intro _
        exact self_mem_setAdd n cc.children
    · have hc' : containsKey (dictInsert n (newConcept s n c a (some p)) s.concepts) p = false := by
        simpa using hc
      have hnone : dictGet (dictInsert n (newConcept s n c a (some p)) s.concepts) p = none := by
        cases hg : dictGet (dictInsert n (newConcept s n c a (some p)) s.concepts) p with
        | none => rfl
        | some v =>
          rw [containsKey, hg] at hc'
          simp at hc'
      have hval : get_children (add_concept s n c a (some p)) p = [] := by
        rw [get_children_eq, add_concept_concepts_neg s n c a p hp hc', hnone]
      rw [hval]
      constructor
      · intro habs
        simp at habs
      · intro hor
        apply absurd _ hc
        rw [hck]
        rcases hor with h1 | h1
        · exact Or.inr h1
        · exact Or.inl h1
  · intro hcs hpn q hq
    have hc' : containsKey (dictInsert n (newConcept s n c a (some p)) s.concepts) p = false := by
      cases hb : containsKey (dictInsert n (newConcept s n c a (some p)) s.concepts) p with
      | false => rfl
      | true =>
        exfalso
        rcases hck.mp hb with h1 | h1
        · exact hpn h1
        · simp [hcs] at h1
    rw [get_children_eq, get_children_eq, add_concept_concepts_neg s n c a p hp hc',
        dictGet_dictInsert_ne _ _ _ _ hq]

theorem C6_witness :
    ("Fashion", "Blazers")
        ∈ (add_concept scenarioStore "Blazers" "sub_category" none (some "Fashion")).graph.edges
      ∧ ("Blazers" ∈ get_children
            (add_concept scenarioStore "Blazers" "sub_category" none (some "Fashion")) "Fashion"
          ↔ (containsKey scenarioStore.concepts "Fashion" = true ∨ "Fashion" = "Blazers")) :=
  ⟨(C6_theorem scenarioStore "Blazers" "sub_category" none "Fashion" (by decide)).1,
   (C6_theorem scenarioStore "Blazers" "sub_category" none "Fashion" (by decide)).2.1⟩

/-- C7: `suggest_new_concept` returns false and changes nothing when the
name is already a committed concept, and otherwise records the proposal in
the pending set and returns true; in particular it refuses `"Denim"` on a
fresh manager (it is seeded under Material) and accepts a genuinely new
name. -/
theorem C7_theorem :
    (∀ (m : OntologyManager) (n c : String) (a : Option AttrMap) (p : Option String),
        (containsKey m.ontology.concepts n = true → suggest_new_concept m n c a p = (false, m))
      ∧ (containsKey m.ontology.concepts n = false →
          suggest_new_concept m n c a p
            = (true, { m with pending_concepts := setAdd (Proposal.mk n c a p) m.pending_concepts })))
      ∧ suggest_new_concept OntologyManager.new "Denim" "attribute" none (some "Material")
          = (false, OntologyManager.new)
      ∧ (suggest_new_concept OntologyManager.new "Streetwear" "style" none (some "Fashion")).1
          = true := by
  refine ⟨?_, by decide, by decide⟩
  intro m n c a p
  constructor
  · intro h
    simp [suggest_new_concept, h]
  · intro h
    simp [suggest_new_concept, h]

theorem C7_witness :
    containsKey OntologyManager.new.ontology.concepts "Denim" = true
      ∧ suggest_new_concept OntologyManager.new "Denim" "attribute" none (some "Material")
          = (false, OntologyManager.new) :=
  ⟨by decide,
   (C7_theorem.1 OntologyManager.new "Denim" "attribute" none (some "Material")).1 (by decide)⟩

/-- C8: `approve_concept` returns false and leaves all state unchanged when
no pending proposal bears the name (in particular on an empty pending set);
when one does, it commits exactly the first matching proposal into the
store via `add_concept`, removes only that proposal from the pending set,
returns true, and every other pending proposal (same-named ones included)
stays pending. -/
theorem C8_theorem :
    ∀ (m : OntologyManager) (n : String),
      (m.pending_concepts = [] → approve_concept m n = (false, m))
      ∧ (m.pending_concepts.find? (fun p => p.name == n) = none →
          approve_concept m n = (false, m))
      ∧ (∀ pr, m.pending_concepts.find? (fun p => p.name == n) = some pr →
          approve_concept m n
            = (true,
               { ontology := add_concept m.ontology pr.name pr.category pr.attributes pr.parent,
                 pending_concepts := m.pending_concepts.erase pr })
          ∧ ∀ q ∈ m.pending_concepts, ¬(q = pr) →
              q ∈ (approve_concept m n).2.pending_concepts) := by
  intro m n
  refine ⟨?_, ?_, ?_⟩
  · intro h
    simp [approve_concept, h]
  · intro h
    simp [approve_concept, h]
  · intro pr h
    constructor
    · simp [approve_concept, h]
    · intro q hq hne
      simp only [approve_concept, h]
      exact (List.mem_erase_of_ne hne).mpr hq

theorem C8_witness :
    approve_concept mgrPending "Hats"
        = (true,
           { ontology := add_concept mgrPending.ontology "Hats" "main_category" none (some "Fashion"),
             pending_concepts :=
               mgrPending.pending_concepts.erase
                 (Proposal.mk "Hats" "main_category" none (some "Fashion")) }) :=
  ((C8_theorem mgrPending "Hats").2.2
    (Proposal.mk "Hats" "main_category" none (some "Fashion")) (by decide)).1

/-- C9: the result of `find_related_concepts` never shrinks when
`max_distance` grows: for `d1 ≤ d2` the result at `d1` is at most as long
as the result at `d2` (the distance filter is pointwise monotone, and
sorting preserves length). -/
theorem C9_theorem (s : FashionOntology) (x : String) (d1 d2 : Nat) (h : d1 ≤ d2) :
    (find_related_concepts s x d1).length ≤ (find_related_concepts s x d2).length := by
  unfold find_related_concepts
  by_cases hn : x ∈ s.graph.nodes
  · simp only [if_pos hn, List.length_map, sortByDist_length]
    apply length_filterMap_mono
    intro node hsome
    by_cases hxn : node = x
    · rw [if_pos hxn] at hsome
      simp at hsome
    · rw [if_neg hxn] at hsome ⊢
      cases hd : dictGet (bfsDists s.graph x) node with
      | none =>
        rw [hd] at hsome
        have hsome' : (none : Option (String × Nat)).isSome = true := hsome
        simp at hsome'
      | some d =>
        rw [hd] at hsome
        have hsome' : (if d ≤ d1 then some (node, d) else none).isSome = true := hsome
        show (if d ≤ d2 then some (node, d) else none).isSome = true
        by_cases hdd : d ≤ d1
        · rw [if_pos (le_trans hdd h)]
          rfl
        · rw [if_neg hdd] at hsome'
          simp at hsome'
  · simp [if_neg hn]

theorem C9_witness :
    (1 : Nat) ≤ 2
      ∧ (find_related_concepts scenarioStore "Fashion" 1).length
          ≤ (find_related_concepts scenarioStore "Fashion" 2).length :=
  ⟨by decide, C9_theorem scenarioStore "Fashion" 1 2 (by decide)⟩

/-- C10: `approve_concept` never re-checks the committed store: whenever a
pending proposal named `n` exists — even if `n` is already a committed
concept — approval returns true and the committed concept stored under `n`
afterwards carries the proposal's category, attributes and parent (the
overwrite of `add_concept`); the committed-name guard exists only in
`suggest_new_concept`. -/
theorem C10_theorem (m : OntologyManager) (n : String) (pr : Proposal)
    (hfind : m.pending_concepts.find? (fun p => p.name == n) = some pr)
    (_hcommitted : containsKey m.ontology.concepts n = true) :
    (approve_concept m n).1 = true
      ∧ (dictGet (approve_concept m n).2.ontology.concepts n).map coreOf
          = some (pr.category, pr.attributes.getD [], pr.parent) := by
  have hname : pr.name = n := by
    have := List.find?_some hfind
    simpa using this
  constructor
  · simp [approve_concept, hfind]
  · have happ : (approve_concept m n).2.ontology
        = add_concept m.ontology pr.name pr.category pr.attributes pr.parent := by
      simp [approve_concept, hfind]
    rw [happ, hname]
    exact coreOf_add_concept_self m.ontology n pr.category pr.attributes pr.parent

theorem C10_witness :
    (approve_concept mgrDup "Fashion").1 = true
      ∧ (dictGet (approve_concept mgrDup "Fashion").2.ontology.concepts "Fashion").map coreOf
          = some ("hijacked", [], none) :=
  C10_theorem mgrDup "Fashion" (Proposal.mk "Fashion" "hijacked" none none)
    (by decide) (by decide)
